import Mathlib

/-!
Shallow embedding of the QuantFlow frontend order-book replica
(`src/frontend/hooks/useOrderbook.ts`) and the WebSocket ingestion buffer
(`useWebSocket`), together with theorems settling the specification claims.

Prices and quantities (JS `number`) are modelled as rationals; the JS
stable `Array.prototype.sort` with a consistent numeric comparator is
modelled by the stable `List.insertionSort` over the comparator's `≤`
relation (any two stable sorts of the same list by the same total preorder
agree, so the choice of stable algorithm is immaterial).
-/

namespace QuantFlow

/-- A price level `[price, qty]` as in the TS tuple `[number, number]`. -/
abbrev Level := Rat × Rat

/-- The `Book` state of `useOrderbook`: `{ bids, asks }`. -/
structure Book where
  bids : List Level
  asks : List Level
deriving DecidableEq

/-- `useState<Book>({ bids: [], asks: [] })`. -/
def emptyBook : Book := ⟨[], []⟩

/-- The wire messages (`WsMsg`), restricted to the fields the book logic
reads: snapshot carries both level lists; incremental carries `is_bid`,
`update_type`, and the `level` pair. -/
inductive WsMsg where
  | snapshot (bids asks : List Level)
  | incremental (isBid : Bool) (updateType : Int) (price qty : Rat)
deriving DecidableEq

/-- `true` exactly on incremental messages. -/
def WsMsg.isIncr : WsMsg → Bool
  | .snapshot _ _ => false
  | .incremental _ _ _ _ => true

/-- The JS comparator `(a, b) => is_bid ? b[0] - a[0] : a[0] - b[0]`
as the relation "a may come before b": comparator value `≤ 0`. -/
def sideRel (isBid : Bool) (a b : Level) : Prop :=
  if isBid then b.1 ≤ a.1 else a.1 ≤ b.1

instance (ib : Bool) : DecidableRel (sideRel ib) := fun a b => by
  unfold sideRel; infer_instance

instance (ib : Bool) : IsTotal Level (sideRel ib) := by
  constructor; intro a b; unfold sideRel; cases ib <;> simp <;> exact le_total _ _

instance (ib : Bool) : IsTrans Level (sideRel ib) := by
  constructor; intro a b c; unfold sideRel; cases ib
  · simp only [if_neg Bool.false_ne_true]; exact fun h1 h2 => le_trans h1 h2
  · simp only [if_pos rfl]; exact fun h1 h2 => le_trans h2 h1

/-- `arr.sort(comparator)`: ES2019 `Array.prototype.sort` is a stable sort,
modelled by the stable `insertionSort` over the comparator's relation
(bids descending by price, asks ascending by price). -/
def sortSide (isBid : Bool) (arr : List Level) : List Level :=
  arr.insertionSort (sideRel isBid)

/-- The upsert branch (`update_type === 0 || update_type === 2`):
`findIndex` of the first level with this price, replace it in place,
else push `[price, qty]` at the end. -/
def upsertLevel (price qty : Rat) : List Level → List Level
  | [] => [(price, qty)]
  | l :: rest =>
    if l.1 = price then (price, qty) :: rest
    else l :: upsertLevel price qty rest

/-- The remove branch (`update_type === 1`):
`arr.filter(([p]) => p !== price)`. -/
def removeLevel (price : Rat) (arr : List Level) : List Level :=
  arr.filter (fun l => l.1 != price)

/-- Select a side of the book (`next[side]` with `side = is_bid ? "bids" : "asks"`). -/
def bookSide (isBid : Bool) (b : Book) : List Level :=
  if isBid then b.bids else b.asks

/-- One message application of the `useOrderbook` effect to the book:
a snapshot replaces both sides verbatim (`setBook({ bids: last.bids,
asks: last.asks })`); an incremental copies the named side, applies the
upsert / remove / no-op branch by `update_type`, sorts with the side
comparator and truncates with `slice(0, 50)`. -/
def applyMsg (b : Book) (m : WsMsg) : Book :=
  match m with
  | .snapshot bids asks => { bids := bids, asks := asks }
  | .incremental isBid updateType price qty =>
    let arr := bookSide isBid b
    let arr :=
      if updateType = 0 ∨ updateType = 2 then upsertLevel price qty arr
      else if updateType = 1 then removeLevel price arr
      else arr
    let arr := (sortSide isBid arr).take 50
    if isBid then { b with bids := arr } else { b with asks := arr }

/-- Apply a sequence of messages in arrival order. -/
def applyMsgs (b : Book) (ms : List WsMsg) : Book :=
  ms.foldl applyMsg b

/-- The latency ring: `latency.current.push(ms)` followed by
`if (length > 200) shift()`. -/
def recordLatency (w : List Int) (ms : Int) : List Int :=
  let w := w ++ [ms]
  if 200 < w.length then w.drop 1 else w

/-- JS `Math.round`: round half toward positive infinity. -/
def jsRound (x : Rat) : Int := Int.floor (x + 1/2)

/-- `latencyMs`: `0` for an empty window, else
`Math.round(arr.reduce((a,b)=>a+b,0) / arr.length)`. -/
def meanLatencyMs (w : List Int) : Int :=
  if w.isEmpty then 0
  else jsRound ((w.sum : Rat) / (w.length : Rat))

/-- The last `n` elements of a list (what JS `slice(-n)` keeps). -/
def lastN (n : Nat) (l : List α) : List α := l.drop (l.length - n)

/-- Full mutable state of the `useOrderbook` hook: the book, the latency
sample window (`latency.current`) and the dropped counter
(`dropped.current`, which no code path ever writes). -/
structure HookState where
  book : Book
  latency : List Int
  dropped : Nat
deriving DecidableEq

/-- Initial hook state: empty book, no samples, `dropped = 0`. -/
def initState : HookState := ⟨emptyBook, [], 0⟩

/-- One run of the `useOrderbook` effect for a newly arrived message with
observed latency `lat` (`Date.now() - last.timestamp`): the latency push
happens for every message kind, then the book update; `dropped` is never
touched. -/
def stepMsg (lat : Int) (m : WsMsg) (s : HookState) : HookState :=
  { book := applyMsg s.book m
    latency := recordLatency s.latency lat
    dropped := s.dropped }

/-- The `useWebSocket` on-message update:
`prev.length > 1000 ? prev.slice(-800).concat(data) : prev.concat(data)`. -/
def pushMsg (prev : List WsMsg) (m : WsMsg) : List WsMsg :=
  if 1000 < prev.length then lastN 800 prev ++ [m] else prev ++ [m]

/-- `spread`: `null` when either side is empty, else
`{ value: bestAsk - bestBid, mid: (bestAsk + bestBid) / 2 }` where
`bestBid`/`bestAsk` are the prices of the heads of the two sides. -/
def spread (b : Book) : Option (Rat × Rat) :=
  match b.bids.head?, b.asks.head? with
  | some bb, some ba => some (ba.1 - bb.1, (ba.1 + bb.1) / 2)
  | _, _ => none

/-- Modelled from the spec: the `replaceAll` processing the spec describes
for snapshot application — duplicates by price resolved last-wins, then
sorted into side order, then truncated to `depthLimit = 50`. Used only to
compare the spec's claim against the code's snapshot behavior. -/
def dedupLastWins (levels : List Level) : List Level :=
  levels.foldl (fun acc l => acc.filter (fun x => x.1 != l.1) ++ [l]) []

/-- Modelled from the spec: `replaceAll` — see `dedupLastWins`. -/
def replaceAllSpec (isBid : Bool) (levels : List Level) : List Level :=
  (sortSide isBid (dedupLastWins levels)).take 50

/-- Strict side ordering: bids strictly descending / asks strictly
ascending by price (this also forbids duplicate prices). -/
abbrev sideSortedStrict (isBid : Bool) (arr : List Level) : Prop :=
  arr.Pairwise (fun a b => if isBid then b.1 < a.1 else a.1 < b.1)

/-- Non-strict side ordering, the order the sort comparator establishes. -/
abbrev sideSorted (isBid : Bool) (arr : List Level) : Prop :=
  arr.Sorted (sideRel isBid)

/-- No two levels of the side share a price. -/
abbrev pricesNodup (arr : List Level) : Prop :=
  arr.Pairwise (fun a b => a.1 ≠ b.1)

/-- The per-side invariant the spec asserts: strict side order and at most
`depthLimit = 50` levels. -/
abbrev goodSide (isBid : Bool) (arr : List Level) : Prop :=
  sideSortedStrict isBid arr ∧ arr.length ≤ 50

/-- The book invariant: both sides satisfy their side invariant. -/
abbrev goodBook (b : Book) : Prop :=
  goodSide true b.bids ∧ goodSide false b.asks

/-- The upsert branch always leaves the upserted pair in the array. -/
lemma mem_upsertLevel (p q : Rat) (arr : List Level) : (p, q) ∈ upsertLevel p q arr := by
  induction arr with
  | nil => simp [upsertLevel]
  | cons l rest ih => by_cases h : l.1 = p <;> simp [upsertLevel, h, ih]

/-- Any member of the upserted array was already present or carries the
upserted price. -/
lemma fst_of_mem_upsertLevel {x : Level} {p q : Rat} :
    ∀ {arr : List Level}, x ∈ upsertLevel p q arr → x ∈ arr ∨ x.1 = p := by
  intro arr
  induction arr with
  | nil =>
    intro h
    simp only [upsertLevel, List.mem_singleton] at h
    right; rw [h]
  | cons l rest ih =>
    intro h
    by_cases hl : l.1 = p
    · simp only [upsertLevel, if_pos hl] at h
      rcases List.mem_cons.mp h with h1 | h1
      · right; rw [h1]
      · left; exact List.mem_cons_of_mem _ h1
    · simp only [upsertLevel, if_neg hl] at h
      rcases List.mem_cons.mp h with h1 | h1
      · left; rw [h1]; exact List.mem_cons_self _ _
      · rcases ih h1 with h2 | h2
        · left; exact List.mem_cons_of_mem _ h2
        · right; exact h2

/-- The upsert branch preserves price uniqueness. -/
lemma pricesNodup_upsertLevel (p q : Rat) :
    ∀ {arr : List Level}, pricesNodup arr → pricesNodup (upsertLevel p q arr) := by
  intro arr
  induction arr with
  | nil => intro _; simp [upsertLevel]
  | cons l rest ih =>
    intro h
    replace h := List.pairwise_cons.mp h
    by_cases hl : l.1 = p
    · simp only [upsertLevel, if_pos hl]
      exact List.pairwise_cons.mpr
        ⟨fun a ha => by rw [← hl]; exact h.1 a ha, h.2⟩
    · simp only [upsertLevel, if_neg hl]
      refine List.pairwise_cons.mpr ⟨fun a ha => ?_, ih h.2⟩
      rcases fst_of_mem_upsertLevel ha with h2 | h2
      · exact h.1 a h2
      · rw [h2]; exact hl

/-- Sorting a side preserves price uniqueness (it is a permutation). -/
lemma pricesNodup_sortSide (ib : Bool) (arr : List Level)
    (h : pricesNodup arr) : pricesNodup (sortSide ib arr) :=
  (List.Perm.pairwise_iff (fun hab => Ne.symm hab)
    (List.perm_insertionSort (sideRel ib) arr)).mpr h

/-- The sorted side is in (non-strict) side order. -/
lemma sideSorted_sortSide (ib : Bool) (arr : List Level) :
    sideSorted ib (sortSide ib arr) :=
  List.sorted_insertionSort (sideRel ib) arr

/-- Non-strict side order plus unique prices gives strict side order. -/
lemma strict_of_sorted_nodup {ib : Bool} {arr : List Level}
    (h1 : sideSorted ib arr) (h2 : pricesNodup arr) :
    sideSortedStrict ib arr := by
  refine (List.Pairwise.and h1 h2).imp ?_
  intro a b hab
  rcases hab with ⟨hle, hne⟩
  cases ib
  · simp only [sideRel, if_neg Bool.false_ne_true] at hle
    simpa using lt_of_le_of_ne hle hne
  · simp only [sideRel, if_pos rfl] at hle
    simpa using lt_of_le_of_ne hle (Ne.symm hne)

/-- Strict side order forbids duplicate prices. -/
lemma pricesNodup_of_strict {ib : Bool} {arr : List Level}
    (h : sideSortedStrict ib arr) : pricesNodup arr := by
  refine h.imp ?_
  intro a b hab
  cases ib
  · simp only [if_neg Bool.false_ne_true] at hab
    exact ne_of_lt hab
  · simp only [if_pos rfl] at hab
    exact ne_of_gt hab

/-- Strict side order is in particular non-strict side order. -/
lemma sorted_of_strict {ib : Bool} {arr : List Level}
    (h : sideSortedStrict ib arr) : sideSorted ib arr := by
  refine h.imp ?_
  intro a b hab
  cases ib
  · simp only [if_neg Bool.false_ne_true] at hab
    simp only [sideRel, if_neg Bool.false_ne_true]
    exact le_of_lt hab
  · simp only [if_pos rfl] at hab
    simp only [sideRel, if_pos rfl]
    exact le_of_lt hab

/-- Sort-then-truncate re-establishes the side invariant from any array
with unique prices. -/
lemma goodSide_sort_take (ib : Bool) (arr : List Level) (h : pricesNodup arr) :
    goodSide ib ((sortSide ib arr).take 50) := by
  constructor
  · exact strict_of_sorted_nodup
      (List.Pairwise.sublist (List.take_sublist 50 _) (sideSorted_sortSide ib arr))
      (List.Pairwise.sublist (List.take_sublist 50 _) (pricesNodup_sortSide ib arr h))
  · rw [List.length_take]
    exact min_le_left _ _

/-- The branch selected by `update_type` preserves price uniqueness. -/
lemma pricesNodup_branch (ut : Int) (p q : Rat) (arr : List Level)
    (h : pricesNodup arr) :
    pricesNodup (if ut = 0 ∨ ut = 2 then upsertLevel p q arr
      else if ut = 1 then removeLevel p arr else arr) := by
  unfold removeLevel
  split_ifs
  · exact pricesNodup_upsertLevel p q h
  · exact List.Pairwise.sublist (List.filter_sublist arr) h
  · exact h

/-- Incremental application on the bid side, unfolded. -/
lemma applyMsg_incr_true (b : Book) (ut : Int) (p q : Rat) :
    applyMsg b (WsMsg.incremental true ut p q) =
      { b with bids := (sortSide true (if ut = 0 ∨ ut = 2
          then upsertLevel p q b.bids
          else if ut = 1 then removeLevel p b.bids else b.bids)).take 50 } := by
  simp [applyMsg, bookSide]

/-- Incremental application on the ask side, unfolded. -/
lemma applyMsg_incr_false (b : Book) (ut : Int) (p q : Rat) :
    applyMsg b (WsMsg.incremental false ut p q) =
      { b with asks := (sortSide false (if ut = 0 ∨ ut = 2
          then upsertLevel p q b.asks
          else if ut = 1 then removeLevel p b.asks else b.asks)).take 50 } := by
  simp [applyMsg, bookSide]

/-- The side named by an incremental message, after application. -/
lemma bookSide_applyMsg (b : Book) (ib : Bool) (ut : Int) (p q : Rat) :
    bookSide ib (applyMsg b (WsMsg.incremental ib ut p q)) =
      (sortSide ib (if ut = 0 ∨ ut = 2 then upsertLevel p q (bookSide ib b)
        else if ut = 1 then removeLevel p (bookSide ib b)
        else bookSide ib b)).take 50 := by
  cases ib
  · rw [applyMsg_incr_false]; simp [bookSide]
  · rw [applyMsg_incr_true]; simp [bookSide]

/-- One incremental message preserves the book invariant. -/
lemma goodBook_applyMsg_incr (b : Book) (ib : Bool) (ut : Int) (p q : Rat)
    (hb : goodBook b) :
    goodBook (applyMsg b (WsMsg.incremental ib ut p q)) := by
  cases ib
  · rw [applyMsg_incr_false]
    exact ⟨hb.1, goodSide_sort_take false _
      (pricesNodup_branch ut p q _ (pricesNodup_of_strict hb.2.1))⟩
  · rw [applyMsg_incr_true]
    exact ⟨goodSide_sort_take true _
      (pricesNodup_branch ut p q _ (pricesNodup_of_strict hb.1.1)), hb.2⟩

/-- A sequence of incremental messages preserves the book invariant. -/
lemma goodBook_applyMsgs :
    ∀ (ms : List WsMsg) (b : Book), (∀ m ∈ ms, m.isIncr = true) →
      goodBook b → goodBook (applyMsgs b ms) := by
  intro ms
  induction ms with
  | nil => intro b _ hb; exact hb
  | cons m rest ih =>
    intro b hms hb
    have hm : m.isIncr = true := hms m (List.mem_cons_self m rest)
    have hrest : ∀ m2 ∈ rest, m2.isIncr = true :=
      fun m2 h2 => hms m2 (List.mem_cons_of_mem m h2)
    cases m with
    | snapshot bs as2 => simp [WsMsg.isIncr] at hm
    | incremental ib ut p q =>
      exact ih _ hrest (goodBook_applyMsg_incr b ib ut p q hb)

/-- One latency-ring push turns "last 200 of `pre`" into
"last 200 of `pre ++ [x]`". -/
lemma recordLatency_lastN (pre : List Int) (x : Int) :
    recordLatency (lastN 200 pre) x = lastN 200 (pre ++ [x]) := by
  unfold recordLatency lastN
  by_cases h : pre.length < 200
  · have h0 : pre.length - 200 = 0 := by omega
    rw [h0, List.drop_zero]
    rw [if_neg (by
      simp only [List.length_append, List.length_cons, List.length_nil]
      omega)]
    rw [show (pre ++ [x]).length - 200 = 0 by
      simp only [List.length_append, List.length_cons, List.length_nil]
      omega]
    rw [List.drop_zero]
  · have hlen : (pre.drop (pre.length - 200)).length = 200 := by
      rw [List.length_drop]; omega
    rw [if_pos (by
      rw [List.length_append, hlen]
      simp only [List.length_cons, List.length_nil]
      omega)]
    rw [List.drop_append_of_le_length (by rw [hlen]; omega)]
    rw [List.drop_drop]
    rw [show (pre ++ [x]).length - 200 = pre.length + 1 - 200 by
      simp only [List.length_append, List.length_cons, List.length_nil]]
    rw [List.drop_append_of_le_length (by omega)]
    rw [show pre.length - 200 + 1 = pre.length + 1 - 200 by omega]

/-- Folding the latency ring over arrivals keeps exactly the most recent
200 samples. -/
lemma foldl_recordLatency (l : List Int) :
    ∀ pre : List Int,
      l.foldl recordLatency (lastN 200 pre) = lastN 200 (pre ++ l) := by
  induction l with
  | nil => intro pre; simp [List.foldl_nil]
  | cons x xs ih =>
    intro pre
    rw [List.foldl_cons, recordLatency_lastN, ih (pre ++ [x]),
      List.append_assoc]
    rfl

/-- C1: the claim that snapshot application sorts, de-duplicates last-wins and
truncates each side is false: the code stores the message's levels verbatim.
At the concrete snapshot with unsorted bids `[(1,1),(2,1)]` the stored bid side
differs from the spec's `replaceAll` result `[(2,1),(1,1)]`. -/
theorem C1_counterexample :
    (applyMsg emptyBook (WsMsg.snapshot [(1, 1), (2, 1)] [])).bids ≠
      replaceAllSpec true [(1, 1), (2, 1)] := by
  decide

/-- C1 (amended): on a Snapshot message the engine replaces both sides
wholesale with the message's level lists verbatim — no sorting, no
de-duplication and no truncation to `depthLimit` is performed. -/
theorem C1_amended (b : Book) (bids asks : List Level) :
    applyMsg b (WsMsg.snapshot bids asks) = { bids := bids, asks := asks } := rfl

/-- C2: the claim that the ordering invariant holds for every sequence of
applied messages is false: a snapshot stores its levels verbatim, so the
snapshot with bids `[(1,1),(2,1)]` yields a bid side that is not strictly
descending. -/
theorem C2_counterexample :
    ¬ sideSortedStrict true
      (applyMsgs emptyBook [WsMsg.snapshot [(1, 1), (2, 1)] []]).bids := by
  decide

/-- C2 (amended): for every sequence of Incremental messages applied from
the empty book, the bid side is strictly descending and the ask side
strictly ascending by price, with no duplicate prices within a side.
(Snapshots store their levels verbatim, so after a snapshot the invariant
holds only if the snapshot's level lists already satisfied it.) -/
theorem C2_amended (ms : List WsMsg) (h : ∀ m ∈ ms, m.isIncr = true) :
    sideSortedStrict true (applyMsgs emptyBook ms).bids ∧
      sideSortedStrict false (applyMsgs emptyBook ms).asks ∧
      pricesNodup (applyMsgs emptyBook ms).bids ∧
      pricesNodup (applyMsgs emptyBook ms).asks := by
  have hg := goodBook_applyMsgs ms emptyBook h (by decide)
  exact ⟨hg.1.1, hg.2.1, pricesNodup_of_strict hg.1.1,
    pricesNodup_of_strict hg.2.1⟩

/-- C2 witness: the amended invariant after a concrete incremental-only
message sequence. -/
theorem C2_witness :
    sideSortedStrict true (applyMsgs emptyBook
        [WsMsg.incremental true 0 100 5, WsMsg.incremental true 0 99 3,
         WsMsg.incremental false 0 101 4]).bids ∧
      sideSortedStrict false (applyMsgs emptyBook
        [WsMsg.incremental true 0 100 5, WsMsg.incremental true 0 99 3,
         WsMsg.incremental false 0 101 4]).asks ∧
      pricesNodup (applyMsgs emptyBook
        [WsMsg.incremental true 0 100 5, WsMsg.incremental true 0 99 3,
         WsMsg.incremental false 0 101 4]).bids ∧
      pricesNodup (applyMsgs emptyBook
        [WsMsg.incremental true 0 100 5, WsMsg.incremental true 0 99 3,
         WsMsg.incremental false 0 101 4]).asks :=
  C2_amended _ (by decide)

/-- C3: the claim that every reachable state holds at most 50 levels per
side is false: a snapshot stores its levels verbatim without truncation, so
a snapshot with 51 bid levels yields a bid side of 51 levels. -/
theorem C3_counterexample :
    ¬ ((applyMsgs emptyBook
        [WsMsg.snapshot (List.replicate 51 ((0 : Rat), (0 : Rat))) []]
      ).bids.length ≤ 50) := by
  intro h
  rw [show (applyMsgs emptyBook
      [WsMsg.snapshot (List.replicate 51 ((0 : Rat), (0 : Rat))) []]).bids
      = List.replicate 51 ((0 : Rat), (0 : Rat)) from rfl,
    List.length_replicate] at h
  omega

/-- C3 (amended): for every sequence of Incremental messages applied from
the empty book, each side holds at most `depthLimit = 50` levels.
(Snapshot application performs no truncation, so a snapshot can exceed the
bound.) -/
theorem C3_amended (ms : List WsMsg) (h : ∀ m ∈ ms, m.isIncr = true) :
    (applyMsgs emptyBook ms).bids.length ≤ 50 ∧
      (applyMsgs emptyBook ms).asks.length ≤ 50 := by
  have hg := goodBook_applyMsgs ms emptyBook h (by decide)
  exact ⟨hg.1.2, hg.2.2⟩

/-- C3 witness: the amended depth bound after a concrete incremental-only
message sequence. -/
theorem C3_witness :
    (applyMsgs emptyBook [WsMsg.incremental true 0 100 5,
        WsMsg.incremental false 2 101 4]).bids.length ≤ 50 ∧
      (applyMsgs emptyBook [WsMsg.incremental true 0 100 5,
        WsMsg.incremental false 2 101 4]).asks.length ≤ 50 :=
  C3_amended _ (by decide)

/-- C4: the claim that pushing onto 1000 pending messages yields 801 pending
is false: the compaction guard is `prev.length > 1000`, so pushing onto
exactly 1000 pending yields 1001 pending. -/
theorem C4_counterexample :
    (pushMsg (List.replicate 1000 (WsMsg.snapshot [] []))
      (WsMsg.snapshot [] [])).length ≠ 801 := by
  have h : ¬ 1000 < (List.replicate 1000 (WsMsg.snapshot [] [])).length := by
    rw [List.length_replicate]; omega
  simp only [pushMsg]
  rw [if_neg h]
  simp only [List.length_append, List.length_replicate, List.length_cons,
    List.length_nil]
  omega

/-- C4 (amended): compaction fires only when the pending count already
exceeds 1000 (reachable exactly at 1001): the buffer then keeps the most
recent 800 pending messages (evicting `pending − 800`, i.e. 201) and appends
the new one, yielding 801; pushing onto exactly 1000 pending yields 1001;
and `droppedCount` is never incremented — no eviction is accounted. -/
theorem C4_amended (prev : List WsMsg) (m : WsMsg) :
    (1000 < prev.length →
      pushMsg prev m = prev.drop (prev.length - 800) ++ [m] ∧
        (pushMsg prev m).length = 801) ∧
    (prev.length = 1000 → (pushMsg prev m).length = 1001) ∧
    (∀ (lat : Int) (m2 : WsMsg) (s : HookState),
      (stepMsg lat m2 s).dropped = s.dropped) := by
  refine ⟨fun h => ⟨?_, ?_⟩, fun h => ?_, fun _ _ _ => rfl⟩
  · simp only [pushMsg, lastN]
    rw [if_pos h]
  · simp only [pushMsg, lastN]
    rw [if_pos h]
    simp only [List.length_append, List.length_drop, List.length_cons,
      List.length_nil]
    omega
  · simp only [pushMsg]
    rw [if_neg (by omega)]
    simp only [List.length_append, List.length_cons, List.length_nil, h]

/-- C4 witness: the amended behavior at concrete buffers of 1001 and 1000
pending snapshot messages. -/
theorem C4_witness :
    pushMsg (List.replicate 1001 (WsMsg.snapshot [] [])) (WsMsg.snapshot [] [])
      = (List.replicate 1001 (WsMsg.snapshot [] [])).drop
          ((List.replicate 1001 (WsMsg.snapshot [] [])).length - 800) ++
          [WsMsg.snapshot [] []] ∧
    (pushMsg (List.replicate 1001 (WsMsg.snapshot [] []))
      (WsMsg.snapshot [] [])).length = 801 ∧
    (pushMsg (List.replicate 1000 (WsMsg.snapshot [] []))
      (WsMsg.snapshot [] [])).length = 1001 ∧
    (stepMsg 0 (WsMsg.snapshot [] []) initState).dropped = initState.dropped := by
  have h := C4_amended (List.replicate 1001 (WsMsg.snapshot [] []))
    (WsMsg.snapshot [] [])
  have h1 := h.1 (by rw [List.length_replicate]; omega)
  exact ⟨h1.1, h1.2,
    (C4_amended (List.replicate 1000 (WsMsg.snapshot [] []))
      (WsMsg.snapshot [] [])).2.1 (by rw [List.length_replicate]),
    h.2.2 0 (WsMsg.snapshot [] []) initState⟩

/-- C5: the claim that an unknown `update_type` is a book no-op that
increments `droppedCount` is false: after a snapshot with unsorted bids,
applying `update_type = 5` re-sorts the bid side (so the book changes), and
`dropped` is never incremented (it stays 0, not `+1`). -/
theorem C5_counterexample :
    (stepMsg 0 (WsMsg.incremental true 5 9 9)
        (stepMsg 0 (WsMsg.snapshot [(1, 1), (2, 1)] []) initState)).book ≠
      (stepMsg 0 (WsMsg.snapshot [(1, 1), (2, 1)] []) initState).book ∧
    (stepMsg 0 (WsMsg.incremental true 5 9 9)
        (stepMsg 0 (WsMsg.snapshot [(1, 1), (2, 1)] []) initState)).dropped ≠
      (stepMsg 0 (WsMsg.snapshot [(1, 1), (2, 1)] []) initState).dropped + 1 := by
  decide

/-- C5 (amended): applying an Incremental with `update_type` outside
`{0, 1, 2}` never raises (application is total by construction); it does
not increment `droppedCount` (which no code path increments); and it leaves
the named side's levels unchanged except for re-sorting into side order and
truncation to 50 — in particular, whenever that side is already in side
order with at most 50 levels, the book is exactly unchanged. -/
theorem C5_amended (s : HookState) (lat : Int) (ib : Bool) (ut : Int)
    (p q : Rat) (h0 : ut ≠ 0) (h1 : ut ≠ 1) (h2 : ut ≠ 2) :
    (stepMsg lat (WsMsg.incremental ib ut p q) s).dropped = s.dropped ∧
    bookSide ib (stepMsg lat (WsMsg.incremental ib ut p q) s).book =
      (sortSide ib (bookSide ib s.book)).take 50 ∧
    (sideSorted ib (bookSide ib s.book) → (bookSide ib s.book).length ≤ 50 →
      (stepMsg lat (WsMsg.incremental ib ut p q) s).book = s.book) := by
  have hbranch : (if ut = 0 ∨ ut = 2 then upsertLevel p q (bookSide ib s.book)
      else if ut = 1 then removeLevel p (bookSide ib s.book)
      else bookSide ib s.book) = bookSide ib s.book := by
    rw [if_neg, if_neg h1]
    rintro (h | h)
    · exact h0 h
    · exact h2 h
  refine ⟨rfl, ?_, ?_⟩
  · show bookSide ib (applyMsg s.book (WsMsg.incremental ib ut p q)) = _
    rw [bookSide_applyMsg, hbranch]
  · intro hs hlen
    show applyMsg s.book (WsMsg.incremental ib ut p q) = s.book
    have hsort : (sortSide ib (if ut = 0 ∨ ut = 2
        then upsertLevel p q (bookSide ib s.book)
        else if ut = 1 then removeLevel p (bookSide ib s.book)
        else bookSide ib s.book)).take 50 = bookSide ib s.book := by
      rw [hbranch]
      unfold sortSide
      rw [List.Sorted.insertionSort_eq hs, List.take_of_length_le hlen]
    cases ib
    · rw [applyMsg_incr_false]
      have hsort2 : (sortSide false (if ut = 0 ∨ ut = 2
          then upsertLevel p q s.book.asks
          else if ut = 1 then removeLevel p s.book.asks
          else s.book.asks)).take 50 = s.book.asks := hsort
      rw [hsort2]
    · rw [applyMsg_incr_true]
      have hsort2 : (sortSide true (if ut = 0 ∨ ut = 2
          then upsertLevel p q s.book.bids
          else if ut = 1 then removeLevel p s.book.bids
          else s.book.bids)).take 50 = s.book.bids := hsort
      rw [hsort2]

/-- C5 witness: `update_type = 5` on the (sorted, small) initial state: the
book and the dropped counter are both unchanged. -/
theorem C5_witness :
    (stepMsg 0 (WsMsg.incremental true 5 9 9) initState).dropped
        = initState.dropped ∧
      (stepMsg 0 (WsMsg.incremental true 5 9 9) initState).book
        = initState.book := by
  have h := C5_amended initState 0 true 5 9 9 (by decide) (by decide) (by decide)
  exact ⟨h.1, h.2.2 (by decide) (by decide)⟩

/-- C6: the claim that an upsert with quantity 0 removes the level is false:
upserting price 100 with quantity 0 into the empty bid side leaves the level
`(100, 0)` present. -/
theorem C6_counterexample :
    (applyMsg emptyBook (WsMsg.incremental true 0 100 0)).bids = [(100, 0)] ∧
      (100, 0) ∈ (applyMsg emptyBook (WsMsg.incremental true 0 100 0)).bids := by
  decide

/-- C6 (amended): an Upsert (`update_type` 0 or 2) with quantity 0 stores the
level `(p, 0)` instead of removing it: on an empty book the named side becomes
exactly `[(p, 0)]`, and in general the upsert branch always leaves `(p, 0)`
in the side's array. -/
theorem C6_amended (p : Rat) (ib : Bool) (ut : Int) (h : ut = 0 ∨ ut = 2) :
    bookSide ib (applyMsg emptyBook (WsMsg.incremental ib ut p 0)) = [(p, 0)] ∧
      ∀ arr : List Level, (p, 0) ∈ upsertLevel p 0 arr := by
  refine ⟨?_, fun arr => mem_upsertLevel p 0 arr⟩
  rcases h with rfl | rfl <;> cases ib <;>
    simp [applyMsg, bookSide, emptyBook, upsertLevel, sortSide,
      List.insertionSort]

/-- C6 witness: the amended statement at price 100 on the bid side with
`update_type = 0`. -/
theorem C6_witness :
    bookSide true (applyMsg emptyBook (WsMsg.incremental true 0 100 0))
      = [(100, 0)] :=
  (C6_amended 100 true 0 (Or.inl rfl)).1

/-- C7: `spread` is `none` whenever either side is empty, and otherwise its
value is `bestAsk − bestBid` and its mid is `(bestAsk + bestBid) / 2`, where
best bid/ask are the prices of the first level of each side. -/
theorem C7_spread_mid (b : Book) :
    ((b.bids = [] ∨ b.asks = []) → spread b = none) ∧
    (∀ bb ba : Level, ∀ bs bas : List Level,
      b.bids = bb :: bs → b.asks = ba :: bas →
        spread b = some (ba.1 - bb.1, (ba.1 + bb.1) / 2)) := by
  constructor
  · rintro (h | h)
    · cases ha : b.asks.head? <;> simp [spread, h, ha]
    · cases hb : b.bids.head? <;> simp [spread, h, hb]
  · intro bb ba bs bas h1 h2
    simp [spread, h1, h2]

/-- C7 witness: the spread of a concrete two-sided book and of the empty
book. -/
theorem C7_witness :
    spread ⟨[(100, 5), (99, 3)], [(101, 4), (102, 2)]⟩
        = some (1, 201 / 2) ∧
      spread emptyBook = none := by
  constructor
  · have h := (C7_spread_mid ⟨[(100, 5), (99, 3)], [(101, 4), (102, 2)]⟩).2
      (100, 5) (101, 4) [(99, 3)] [(102, 2)] rfl rfl
    rw [h]
    norm_num
  · exact (C7_spread_mid emptyBook).1 (Or.inl rfl)

/-- C8: after any sequence of latency observations the window holds exactly
the most recent (at most 200) samples, the oldest evicted first; the mean is
the arithmetic mean of the current samples rounded (`Math.round`), and `0`
with no samples. -/
theorem C8_latency_mean (l : List Int) :
    l.foldl recordLatency [] = lastN 200 l ∧
    (l.foldl recordLatency []).length ≤ 200 ∧
    meanLatencyMs [] = 0 ∧
    (l.foldl recordLatency [] ≠ [] →
      meanLatencyMs (l.foldl recordLatency []) =
        jsRound (((l.foldl recordLatency []).sum : Rat) /
          ((l.foldl recordLatency []).length : Rat))) := by
  have hw : l.foldl recordLatency [] = lastN 200 l := by
    have h := foldl_recordLatency l []
    simpa [lastN] using h
  refine ⟨hw, ?_, rfl, ?_⟩
  · rw [hw]
    unfold lastN
    rw [List.length_drop]
    omega
  · intro hne
    unfold meanLatencyMs
    rw [if_neg (by simpa [List.isEmpty_iff] using hne)]

/-- C8 witness: the window and the mean formula after feeding the samples
`[5, 7]`. -/
theorem C8_witness :
    ([5, 7] : List Int).foldl recordLatency [] = lastN 200 [5, 7] ∧
      meanLatencyMs (([5, 7] : List Int).foldl recordLatency []) =
        jsRound (((([5, 7] : List Int).foldl recordLatency []).sum : Rat) /
          ((([5, 7] : List Int).foldl recordLatency []).length : Rat)) := by
  have h := C8_latency_mean ([5, 7] : List Int)
  exact ⟨h.1, h.2.2.2 (by decide)⟩

/-- C9: the first half of the claim holds, but "Remove(p) on an absent price
leaves the state unchanged" is false for every state: after a snapshot with
unsorted bids `[(1,1),(2,1)]`, removing the absent price 3 re-sorts the bid
side, changing the book. -/
theorem C9_counterexample :
    applyMsg (applyMsg emptyBook (WsMsg.snapshot [(1, 1), (2, 1)] []))
        (WsMsg.incremental true 1 3 0)
      ≠ applyMsg emptyBook (WsMsg.snapshot [(1, 1), (2, 1)] []) := by
  decide

/-- C9 (amended): applying `Upsert(p, q)` then `Remove(p)` to a book whose
named side is empty yields an empty side; `Remove(p)` on an absent price
leaves the state exactly unchanged provided the side is already in side
order with at most 50 levels (as in every incremental-only reachable
state); and no drop is recorded — `dropped` is unchanged by every message. -/
theorem C9_amended :
    (∀ (b : Book) (ib : Bool) (ut : Int) (p q q2 : Rat), ut = 0 ∨ ut = 2 →
      bookSide ib b = [] →
      bookSide ib (applyMsg (applyMsg b (WsMsg.incremental ib ut p q))
        (WsMsg.incremental ib 1 p q2)) = []) ∧
    (∀ (b : Book) (ib : Bool) (p q2 : Rat),
      sideSorted ib (bookSide ib b) → (bookSide ib b).length ≤ 50 →
      (∀ l ∈ bookSide ib b, l.1 ≠ p) →
      applyMsg b (WsMsg.incremental ib 1 p q2) = b) ∧
    (∀ (s : HookState) (lat : Int) (m : WsMsg),
      (stepMsg lat m s).dropped = s.dropped) := by
  refine ⟨?_, ?_, fun _ _ _ => rfl⟩
  · intro b ib ut p q q2 hut hside
    have h1 : bookSide ib (applyMsg b (WsMsg.incremental ib ut p q))
        = [(p, q)] := by
      rw [bookSide_applyMsg, if_pos hut, hside]
      simp [upsertLevel, sortSide, List.insertionSort, List.orderedInsert]
    rw [bookSide_applyMsg, h1, if_neg (by decide), if_pos rfl]
    simp [removeLevel, sortSide, List.insertionSort]
  · intro b ib p q2 hs hlen habs
    have hrm : removeLevel p (bookSide ib b) = bookSide ib b := by
      unfold removeLevel
      rw [List.filter_eq_self]
      intro a ha
      simpa using habs a ha
    have hX : (sortSide ib (if (1 : Int) = 0 ∨ (1 : Int) = 2
        then upsertLevel p q2 (bookSide ib b)
        else if (1 : Int) = 1 then removeLevel p (bookSide ib b)
        else bookSide ib b)).take 50 = bookSide ib b := by
      rw [if_neg (by decide), if_pos rfl, hrm]
      unfold sortSide
      rw [List.Sorted.insertionSort_eq hs, List.take_of_length_le hlen]
    cases ib
    · rw [applyMsg_incr_false]
      have hX2 : (sortSide false (if (1 : Int) = 0 ∨ (1 : Int) = 2
          then upsertLevel p q2 b.asks
          else if (1 : Int) = 1 then removeLevel p b.asks
          else b.asks)).take 50 = b.asks := hX
      rw [hX2]
    · rw [applyMsg_incr_true]
      have hX2 : (sortSide true (if (1 : Int) = 0 ∨ (1 : Int) = 2
          then upsertLevel p q2 b.bids
          else if (1 : Int) = 1 then removeLevel p b.bids
          else b.bids)).take 50 = b.bids := hX
      rw [hX2]

/-- C9 witness: upsert-then-remove at price 100 on the empty book leaves the
bid side empty; removing the absent price 3 from a sorted two-level bid book
leaves it unchanged; the dropped counter never moves. -/
theorem C9_witness :
    bookSide true (applyMsg (applyMsg emptyBook (WsMsg.incremental true 0 100 5))
        (WsMsg.incremental true 1 100 0)) = [] ∧
      applyMsg ⟨[(2, 1), (1, 1)], []⟩ (WsMsg.incremental true 1 3 0)
        = ⟨[(2, 1), (1, 1)], []⟩ ∧
      (stepMsg 0 (WsMsg.incremental true 1 3 0) initState).dropped
        = initState.dropped := by
  have h := C9_amended
  exact ⟨h.1 emptyBook true 0 100 5 0 (Or.inl rfl) rfl,
    h.2.1 ⟨[(2, 1), (1, 1)], []⟩ true 3 0 (by decide) (by decide) (by decide),
    h.2.2 initState 0 (WsMsg.incremental true 1 3 0)⟩

/-- C10: an Incremental message mutates only the side named by `is_bid`;
the opposite side's level sequence is exactly unchanged, for every
`update_type`. -/
theorem C10_frame (b : Book) (ib : Bool) (ut : Int) (p q : Rat) :
    bookSide (!ib) (applyMsg b (WsMsg.incremental ib ut p q)) =
      bookSide (!ib) b := by
  cases ib <;> simp [applyMsg, bookSide]

end QuantFlow
